import Mathlib

/-!
Shallow embedding of the content-ingestion pipeline of this repository and
proofs about it.  The embedded components are:

* the text sanitizer (`Sanitizer.ts`: `sanitizeText`, `sanitizeAndValidate`),
* the token counter (`TokenCounter.ts`: `countTokens`, `countTokensEstimate`,
  `truncateToTokenLimit`),
* the Mistral embedding client (`Mistral.ts`: `createEmbeddings`,
  `createEmbeddingsBatched`),
* the upload validation schema (`UrlUploadSchema`),
* the deterministic vector-store key derivation for chunks
  (`chunksSchema.pineconeId`; the key format is recorded in the repository's
  ingestion plan document).

JavaScript strings are modelled as lists of Unicode code points
(`List Nat`); the characters handled by the sanitizer are all in the Basic
Multilingual Plane, where code points and UTF-16 code units coincide.
Asynchronous functions are modelled as pure functions; the external
embedding provider and the optional tokenizer are parameters, and
side effects of the batched embedding loop (provider calls, progress
callbacks, inter-batch delays) are recorded as an explicit event trace.
-/

namespace Ingest

/-! ## Sanitizer: character classes (`Sanitizer.ts` regular expressions) -/

/-- `CONTROL_CHAR_REGEX = /[\x00-\x08\v\f\x0E-\x1F\x7F-\x9F]/g`: C0 and C1
control characters except tab (0x09), newline (0x0A) and carriage return
(0x0D). -/
def isControlChar (c : Nat) : Bool :=
  (c ≤ 0x08) || c == 0x0B || c == 0x0C ||
  (0x0E ≤ c && c ≤ 0x1F) || (0x7F ≤ c && c ≤ 0x9F)

/-- `ZERO_WIDTH_REGEX`, the class U+200B to U+200D, U+FEFF, U+00AD:
zero-width characters and the soft hyphen. -/
def isZeroWidthChar (c : Nat) : Bool :=
  (0x200B ≤ c && c ≤ 0x200D) || c == 0xFEFF || c == 0x00AD

/-- `BIDI_CONTROL_REGEX`, the class U+202A to U+202E and U+2066 to
U+2069: bidirectional override and isolate control characters. -/
def isBidiChar (c : Nat) : Bool :=
  (0x202A ≤ c && c ≤ 0x202E) || (0x2066 ≤ c && c ≤ 0x2069)

/-- The WhiteSpace and LineTerminator productions of ECMAScript, the set
removed at both ends by `String.prototype.trim`. -/
def isJsWhitespace (c : Nat) : Bool :=
  c == 0x09 || c == 0x0A || c == 0x0B || c == 0x0C || c == 0x0D ||
  c == 0x20 || c == 0xA0 || c == 0x1680 || (0x2000 ≤ c && c ≤ 0x200A) ||
  c == 0x2028 || c == 0x2029 || c == 0x202F || c == 0x205F ||
  c == 0x3000 || c == 0xFEFF

/-! ## Sanitizer: a fragment of Unicode NFC

`sanitizeText` starts with `text.normalize('NFC')`.  The embedding uses
the canonical-composition algorithm of UAX #15 restricted to a finite
character table that is faithful to the Unicode character database:

* canonical decompositions: U+00E1 = U+0061 U+0301 and U+00E9 = U+0065
  U+0301 (the primary composites of the Latin letters a and e with
  U+0301 COMBINING ACUTE ACCENT);
* canonical combining classes: U+0301 has class 230, every other code
  point in the table is a starter (class 0) — in particular U+200B
  ZERO WIDTH SPACE is a starter with no decomposition and no composition,
  so it blocks composition across it, exactly as in full Unicode NFC.

Because the fragment has a single non-zero combining class, the canonical
reordering step of NFC is the identity and is omitted. -/

/-- Canonical combining class of the NFC fragment. -/
def ccc (c : Nat) : Nat := if c == 0x301 then 230 else 0

/-- Canonical decomposition of the NFC fragment. -/
def canonicalDecomp (c : Nat) : List Nat :=
  if c == 0xE1 then [0x61, 0x301]
  else if c == 0xE9 then [0x65, 0x301]
  else [c]

/-- Primary composite table of the NFC fragment. -/
def primaryComposite (l c : Nat) : Option Nat :=
  if l == 0x61 && c == 0x301 then some 0xE1
  else if l == 0x65 && c == 0x301 then some 0xE9
  else none

/-- Canonical composition pass of UAX #15: walk the decomposed sequence
keeping the last starter; a combining mark composes with that starter
when it is not blocked, that is, when no mark of equal or higher
combining class stands between them; a new starter closes the run. -/
def composeRun (starter : Nat) (pending : List Nat) : List Nat → List Nat
  | [] => starter :: pending.reverse
  | c :: rest =>
    if ccc c == 0 then
      (starter :: pending.reverse) ++ composeRun c [] rest
    else
      let blocked := match pending with
        | [] => false
        | p :: _ => decide (ccc c ≤ ccc p)
      match primaryComposite starter c with
      | some comp => if blocked then composeRun starter (c :: pending) rest
                     else composeRun comp pending rest
      | none => composeRun starter (c :: pending) rest

/-- Canonical composition of a whole sequence: combining marks before the
first starter cannot compose and pass through. -/
def canonicalCompose : List Nat → List Nat
  | [] => []
  | c :: rest =>
    if ccc c == 0 then composeRun c [] rest else c :: canonicalCompose rest

/-- `text.normalize('NFC')` on the fragment: canonical decomposition
followed by canonical composition (canonical reordering is the identity
here, see above). -/
def normalizeNFC (s : List Nat) : List Nat :=
  canonicalCompose (s.flatMap canonicalDecomp)

/-! ## Sanitizer: replacement stages (`sanitizeText` pipeline) -/

/-- `.replace(R, '')` for a character-class regex `R`: global removal of
every matching character. -/
def removeChars (p : Nat → Bool) (s : List Nat) : List Nat :=
  s.filter (fun c => !(p c))

/-- `.replace(/\r\n/g, '\n')`: left-to-right non-overlapping replacement
of the pair CR LF by LF. -/
def crlfToLf : List Nat → List Nat
  | [] => []
  | [c] => [c]
  | a :: b :: rest =>
    if a == 13 && b == 10 then 10 :: crlfToLf rest
    else a :: crlfToLf (b :: rest)

/-- `.replace(/\r/g, '\n')`: every remaining CR becomes LF. -/
def crToLf (s : List Nat) : List Nat :=
  s.map (fun c => if c == 13 then 10 else c)

/-- `.replace(/ +/g, ' ')`: each maximal run of spaces collapses to a
single space, realized by deleting any space directly followed by
another space. -/
def squeezeSpaces : List Nat → List Nat
  | [] => []
  | [c] => [c]
  | a :: b :: rest =>
    if a == 32 && b == 32 then squeezeSpaces (b :: rest)
    else a :: squeezeSpaces (b :: rest)

/-- `.replace(/\n{3,}/g, '\n\n')`: each maximal run of three or more
newlines collapses to exactly two, realized by deleting any newline
directly followed by two newlines. -/
def squeezeNewlines : List Nat → List Nat
  | [] => []
  | [c] => [c]
  | [c, d] => [c, d]
  | a :: b :: c :: rest =>
    if a == 10 && b == 10 && c == 10 then squeezeNewlines (b :: c :: rest)
    else a :: squeezeNewlines (b :: c :: rest)

/-- `.trimEnd()` over code points: drop trailing ECMAScript whitespace. -/
def trimRight : List Nat → List Nat
  | [] => []
  | c :: rest =>
    match trimRight rest with
    | [] => if isJsWhitespace c then [] else [c]
    | r => c :: r

/-- `.trim()`: drop leading and trailing ECMAScript whitespace. -/
def trim (s : List Nat) : List Nat :=
  trimRight (s.dropWhile isJsWhitespace)

/-- The `sanitizeText` pipeline after Unicode normalization: remove
control, zero-width and bidi characters, normalize line endings,
collapse space and newline runs, trim. -/
def sanitizeRest (s : List Nat) : List Nat :=
  trim (squeezeNewlines (squeezeSpaces (crToLf (crlfToLf
    (removeChars isBidiChar
      (removeChars isZeroWidthChar
        (removeChars isControlChar s)))))))

/-- `sanitizeText` of `Sanitizer.ts`: NFC normalization followed by the
removal, line-ending, whitespace-collapsing and trimming stages, in the
source's fixed order. -/
def sanitizeText (s : List Nat) : List Nat :=
  sanitizeRest (normalizeNFC s)

/-- Result record of `sanitizeAndValidate`. -/
structure SanitizeResult where
  text : List Nat
  valid : Bool
  length : Nat
  deriving Repr, DecidableEq

/-- `sanitizeAndValidate(text, minLength)` of `Sanitizer.ts`: sanitize
first, then compare the sanitized length against the threshold (the
source's default threshold is 100). -/
def sanitizeAndValidate (s : List Nat) (minLength : Nat) : SanitizeResult :=
  let sanitized := sanitizeText s
  { text := sanitized
    valid := decide (minLength ≤ sanitized.length)
    length := sanitized.length }

/-! ## Sanitizer: output-shape predicates

Statement vocabulary for the claims: a run of two adjacent spaces, and a
run of three adjacent newlines. -/

/-- Some space (0x20) is directly followed by another space. -/
def hasDoubleSpace : List Nat → Bool
  | [] => false
  | a :: rest =>
    (decide (a = 32) && decide (rest.head? = some 32)) || hasDoubleSpace rest

/-- Some newline (0x0A) is directly followed by two more newlines. -/
def hasTripleNewline : List Nat → Bool
  | [] => false
  | a :: rest =>
    (decide (a = 10) && decide (rest.head? = some 10) &&
      decide (rest.tail.head? = some 10)) || hasTripleNewline rest

/-! ## TokenCounter (`TokenCounter.ts`)

Texts are modelled as `List Char`; `text.length`, `text.slice(0, n)`
become `List.length`, `List.take n`.  The optional backing tokenizer
(`mistral-tokenizer-ts`, an external dependency loaded lazily) is an
abstract pair of functions; `none` is the permanent fallback state in
which the tokenizer failed to load. -/

/-- The tokenizer interface of `TokenCounter.ts`. -/
structure Tokenizer where
  encode : List Char → List Nat
  decode : List Nat → List Char

/-- `CHARS_PER_TOKEN = 4`, the character-ratio estimate. -/
def CHARS_PER_TOKEN : Nat := 4

/-- `countTokens(text)`: the exact token count `tok.encode(text).length`
when the tokenizer is available, otherwise
`Math.ceil(text.length / CHARS_PER_TOKEN)` (the rounding-up division,
realized on naturals; `natCeil_divFour` below connects it to the exact
rational ceiling). -/
def countTokens (tok : Option Tokenizer) (text : List Char) : Nat :=
  match tok with
  | some tk => (tk.encode text).length
  | none => (text.length + CHARS_PER_TOKEN - 1) / CHARS_PER_TOKEN

/-- `countTokensEstimate(text)`: always the character-ratio estimate. -/
def countTokensEstimate (text : List Char) : Nat :=
  (text.length + CHARS_PER_TOKEN - 1) / CHARS_PER_TOKEN

/-- `truncateToTokenLimit(text, maxTokens)`: with a tokenizer, return the
input if its encoding fits, else decode the first `maxTokens` tokens; in
fallback, return the input if within `maxTokens * CHARS_PER_TOKEN`
characters, else the character prefix of that length. -/
def truncateToTokenLimit (tok : Option Tokenizer) (text : List Char)
    (maxTokens : Nat) : List Char :=
  match tok with
  | some tk =>
    let tokens := tk.encode text
    if tokens.length ≤ maxTokens then text
    else tk.decode (tokens.take maxTokens)
  | none =>
    let maxChars := maxTokens * CHARS_PER_TOKEN
    if text.length ≤ maxChars then text
    else text.take maxChars

/-- Concrete tokenizer used only to instantiate witnesses. -/
def trivialTokenizer : Tokenizer :=
  { encode := fun _ => [], decode := fun _ => [] }

/-! ## Mistral embedding client (`Mistral.ts`)

The external provider response is abstracted as a function from a batch
of texts to a list of vectors (one per text).  The client is modelled in
its configured state (`MISTRAL_API_KEY` present); when the client is
missing the source throws before reaching any of the embedded checks, so
no provider call is made in that state either.  A `createEmbeddingsBatched`
run is modelled together with its observable side effects (provider
calls, progress callbacks, inter-batch delays) as an event trace. -/

/-- `MAX_BATCH_SIZE = 16`. -/
def MAX_BATCH_SIZE : Nat := 16

/-- Outcome of one `createEmbeddings` call, up to the provider request:
either the thrown validation error, or the provider invoked on exactly
the given batch. -/
inductive EmbedOutcome where
  | error (msg : String)
  | providerCall (inputs : List String)
  deriving Repr, DecidableEq

/-- `createEmbeddings(texts)` of `Mistral.ts`: throw on more than
`MAX_BATCH_SIZE` texts, throw on the empty batch, otherwise call the
provider with the full batch. -/
def createEmbeddings (texts : List String) : EmbedOutcome :=
  if texts.length > MAX_BATCH_SIZE then
    EmbedOutcome.error "Maximum 16 texts per request"
  else if texts.length = 0 then
    EmbedOutcome.error "At least one text is required"
  else
    EmbedOutcome.providerCall texts

/-- Observable side effects of the batched loop: a `createEmbeddings`
provider call, an `onProgress(completed, total)` invocation, a
`setTimeout` delay in milliseconds. -/
inductive BatchEvent where
  | call (batch : List String)
  | progress (completed total : Nat)
  | delay (ms : Nat)
  deriving Repr, DecidableEq

/-- The `for (let i = 0; i < texts.length; i += MAX_BATCH_SIZE)` loop of
`createEmbeddingsBatched`, as recursion on the texts not yet embedded;
`done` is the loop index `i`.  Each iteration takes the next slice of at
most `MAX_BATCH_SIZE` texts, passes it through `createEmbeddings`
(propagating a thrown error), appends the provider's vectors, reports
`min(i + MAX_BATCH_SIZE, total)` completed, and sleeps 31000 ms only when
texts remain. -/
def createEmbeddingsBatchedAux {α : Type} (f : List String → List α)
    (total : Nat) : List String → Nat →
    Except String (List α × List BatchEvent)
  | [], _ => Except.ok ([], [])
  | r :: rs, done =>
    let batch := (r :: rs).take MAX_BATCH_SIZE
    let rest := (r :: rs).drop MAX_BATCH_SIZE
    match createEmbeddings batch with
    | EmbedOutcome.error e => Except.error e
    | EmbedOutcome.providerCall b =>
      match createEmbeddingsBatchedAux f total rest (done + batch.length) with
      | Except.error e => Except.error e
      | Except.ok (vs, evs) =>
        Except.ok (f b ++ vs,
          BatchEvent.call b ::
            BatchEvent.progress (done + batch.length) total ::
              ((if rest.isEmpty then [] else [BatchEvent.delay 31000]) ++ evs))
  termination_by l _ => l.length
  decreasing_by simp [List.length_drop, MAX_BATCH_SIZE]; omega

/-- `createEmbeddingsBatched(texts, onProgress)` of `Mistral.ts`. -/
def createEmbeddingsBatched {α : Type} (f : List String → List α)
    (texts : List String) : Except String (List α × List BatchEvent) :=
  createEmbeddingsBatchedAux f texts.length texts 0

/-- The partition of a list into consecutive slices of at most
`MAX_BATCH_SIZE` elements, in order — the batches the loop visits. -/
def chunks16 {α : Type} : List α → List (List α)
  | [] => []
  | r :: rs =>
    (r :: rs).take MAX_BATCH_SIZE :: chunks16 ((r :: rs).drop MAX_BATCH_SIZE)
  termination_by l => l.length
  decreasing_by simp [List.length_drop, MAX_BATCH_SIZE]; omega

/-- The event trace claim C6 predicts over a batch partition: one
provider call then one cumulative progress report per batch, with a
31000 ms delay strictly between consecutive batches and none after the
last. -/
def expectedTrace (total : Nat) : List (List String) → Nat → List BatchEvent
  | [], _ => []
  | [b], done =>
    [BatchEvent.call b, BatchEvent.progress (done + b.length) total]
  | b :: b' :: bs, done =>
    BatchEvent.call b :: BatchEvent.progress (done + b.length) total ::
      BatchEvent.delay 31000 :: expectedTrace total (b' :: bs) (done + b.length)

/-! ## Remote-URL submission validation

URLs are modelled as `List Char`. -/

/-- The secure-scheme prefix the schema demands, `https://`. -/
def httpsPrefix : List Char := ['h', 't', 't', 'p', 's', ':', '/', '/']

/-- The scheme of a URL: the characters before the first colon. -/
def urlScheme (url : List Char) : List Char :=
  url.takeWhile (fun c => c ≠ ':')

/-- `UrlUploadSchema`'s `url` field check: zod's generic URL
well-formedness test `.url()` (an external library predicate, abstracted
as a parameter) conjoined with the source's refinement
`url.startsWith('https://')`. -/
def urlUploadAccepts (isUrl : List Char → Bool) (url : List Char) : Bool :=
  isUrl url && httpsPrefix.isPrefixOf url

/-- Result of a `fetchText` validation run: refusal before any network
activity, or the network fetch being reached. -/
inductive FetchOutcome where
  | securityBlocked
  | networkFetch (url : List Char)
  deriving Repr, DecidableEq

/-- Modelled from the spec: the `SecureFetcher` component (`fetchText`,
spec section 4.3) has no implementation in the source tree — only the
URL upload schema exists — so its validation sequence is modelled from
the spec's words.  Step 1 parses the URL and rejects any scheme other
than the secure HTTP scheme; steps 2 and 3 resolve the host and block
private, loopback, link-local, unique-local, multicast, reserved and
cloud-metadata targets (abstracted as the `resolvesDisallowed`
parameter); each step short-circuits, so a network fetch is reached only
after every check passes. -/
def fetchText (resolvesDisallowed : List Char → Bool) (url : List Char) :
    FetchOutcome :=
  if urlScheme url ≠ ['h', 't', 't', 'p', 's'] then
    FetchOutcome.securityBlocked
  else if resolvesDisallowed url then
    FetchOutcome.securityBlocked
  else
    FetchOutcome.networkFetch url

/-! ## Deterministic vector-store keys for chunks -/

/-- Modelled from the spec: the ingestion orchestrator that assigns
vector-store keys is not implemented in the source tree — the schema only
declares the unique `pinecone_id` column — and the repository's ingestion
plan fixes the deterministic key format: the document identifier,
the literal infix `_chunk_`, and the zero-based position. -/
def pineconeIdFor (documentId : String) (position : Nat) : String :=
  documentId ++ "_chunk_" ++ toString position

/-- The vector-store keys one ingestion run assigns to a document's
chunks: the key at each position, independent of the chunk contents. -/
def vectorKeysFor (documentId : String) (chunkTexts : List String) :
    List String :=
  (List.range chunkTexts.length).map (pineconeIdFor documentId)

/-! ## Sanitizer: membership lemmas -/

theorem mem_crlfToLf {c : Nat} {s : List Nat} (h : c ∈ crlfToLf s) : c ∈ s := by
  induction s using crlfToLf.induct with
  | case1 => simpa [crlfToLf] using h
  | case2 d => simpa [crlfToLf] using h
  | case3 a b rest hab ih =>
    rw [crlfToLf, if_pos hab] at h
    rcases List.mem_cons.mp h with rfl | h'
    · simp [Bool.and_eq_true, beq_iff_eq] at hab
      simp [hab]
    · simp [List.mem_cons, ih h']
  | case4 a b rest hab ih =>
    rw [crlfToLf, if_neg hab] at h
    rcases List.mem_cons.mp h with rfl | h'
    · exact List.mem_cons_self _ _
    · exact List.mem_cons_of_mem _ (ih h')

theorem thirteen_not_mem_crToLf (s : List Nat) : (13 : Nat) ∉ crToLf s := by
  intro h
  rcases List.mem_map.mp h with ⟨a, _, ha⟩
  by_cases h13 : a == 13
  · simp [h13] at ha
  · simp [h13] at ha
    simp [ha] at h13

theorem mem_crToLf {c : Nat} {s : List Nat} (h : c ∈ crToLf s) :
    c ∈ s ∨ c = 10 := by
  rcases List.mem_map.mp h with ⟨a, hmem, ha⟩
  by_cases h13 : a == 13
  · simp [h13] at ha
    right; omega
  · simp [h13] at ha
    left; exact ha ▸ hmem

theorem mem_squeezeSpaces {c : Nat} {s : List Nat}
    (h : c ∈ squeezeSpaces s) : c ∈ s := by
  induction s using squeezeSpaces.induct with
  | case1 => simpa [squeezeSpaces] using h
  | case2 d => simpa [squeezeSpaces] using h
  | case3 a b rest hab ih =>
    rw [squeezeSpaces, if_pos hab] at h
    exact List.mem_cons_of_mem _ (ih h)
  | case4 a b rest hab ih =>
    rw [squeezeSpaces, if_neg hab] at h
    rcases List.mem_cons.mp h with rfl | h'
    · exact List.mem_cons_self _ _
    · exact List.mem_cons_of_mem _ (ih h')

theorem mem_squeezeNewlines {c : Nat} {s : List Nat}
    (h : c ∈ squeezeNewlines s) : c ∈ s := by
  induction s using squeezeNewlines.induct with
  | case1 => simpa [squeezeNewlines] using h
  | case2 d => simpa [squeezeNewlines] using h
  | case3 d e => simpa [squeezeNewlines] using h
  | case4 a b d rest habd ih =>
    rw [squeezeNewlines, if_pos habd] at h
    exact List.mem_cons_of_mem _ (ih h)
  | case5 a b d rest habd ih =>
    rw [squeezeNewlines, if_neg habd] at h
    rcases List.mem_cons.mp h with rfl | h'
    · exact List.mem_cons_self _ _
    · exact List.mem_cons_of_mem _ (ih h')

theorem prefix_of_trimRight (s : List Nat) : trimRight s <+: s := by
  induction s with
  | nil => simp [trimRight]
  | cons c rest ih =>
    rw [trimRight]
    rcases h : trimRight rest with _ | ⟨x, xs⟩
    · by_cases hws : isJsWhitespace c <;> simp [hws]
    · rw [h] at ih
      exact (List.prefix_cons_inj c).mpr ih

theorem dropWhile_suffix (p : Nat → Bool) (s : List Nat) :
    s.dropWhile p <:+ s := by
  induction s with
  | nil => simp
  | cons c rest ih =>
    by_cases h : p c
    · rw [List.dropWhile_cons_of_pos h]
      exact ih.trans (List.suffix_cons c rest)
    · rw [List.dropWhile_cons_of_neg h]

theorem mem_trim {c : Nat} {s : List Nat} (h : c ∈ trim s) : c ∈ s := by
  have h1 : c ∈ s.dropWhile isJsWhitespace :=
    (prefix_of_trimRight _).subset h
  exact (dropWhile_suffix _ s).subset h1

/-! ## Sanitizer: head lemmas for the collapsing stages -/

theorem squeezeSpaces_head (s : List Nat) :
    ∀ a rest, s = a :: rest → (squeezeSpaces s).head? = some a := by
  induction s using squeezeSpaces.induct with
  | case1 => intro a rest h; cases h
  | case2 d => intro a rest h; cases h; simp [squeezeSpaces]
  | case3 x y ys hxy ih =>
    intro a rest h
    injection h with h1 h2
    subst h1
    rw [squeezeSpaces, if_pos hxy, ih y ys rfl]
    simp only [Bool.and_eq_true, beq_iff_eq] at hxy
    rw [hxy.1, hxy.2]
  | case4 x y ys hxy ih =>
    intro a rest h
    injection h with h1 h2
    subst h1
    rw [squeezeSpaces, if_neg hxy]
    rfl

theorem squeezeNewlines_head (s : List Nat) :
    ∀ a rest, s = a :: rest → (squeezeNewlines s).head? = some a := by
  induction s using squeezeNewlines.induct with
  | case1 => intro a rest h; cases h
  | case2 d => intro a rest h; cases h; simp [squeezeNewlines]
  | case3 d e => intro a rest h; cases h; simp [squeezeNewlines]
  | case4 x y z zs hxyz ih =>
    intro a rest h
    injection h with h1 h2
    subst h1
    rw [squeezeNewlines, if_pos hxyz, ih y (z :: zs) rfl]
    simp only [Bool.and_eq_true, beq_iff_eq] at hxyz
    rw [hxyz.1.1, hxyz.1.2]
  | case5 x y z zs hxyz ih =>
    intro a rest h
    injection h with h1 h2
    subst h1
    rw [squeezeNewlines, if_neg hxyz]
    rfl

theorem squeezeNewlines_head_two (s : List Nat) :
    ∀ a b rest, s = a :: b :: rest →
      (squeezeNewlines s).head? = some a ∧
      (squeezeNewlines s).tail.head? = some b := by
  induction s using squeezeNewlines.induct with
  | case1 => intro a b rest h; cases h
  | case2 d => intro a b rest h; cases h
  | case3 d e => intro a b rest h; cases h; simp [squeezeNewlines]
  | case4 x y z zs hxyz ih =>
    intro a b rest h
    injection h with h1 h2
    injection h2 with h2 h3
    subst h1; subst h2
    rw [squeezeNewlines, if_pos hxyz]
    obtain ⟨ihy, ihz⟩ := ih y z zs rfl
    simp only [Bool.and_eq_true, beq_iff_eq] at hxyz
    obtain ⟨⟨hx10, hy10⟩, hz10⟩ := hxyz
    rw [ihy, ihz, hx10, hy10, hz10]
    exact ⟨rfl, rfl⟩
  | case5 x y z zs hxyz ih =>
    intro a b rest h
    injection h with h1 h2
    injection h2 with h2 h3
    subst h1; subst h2
    rw [squeezeNewlines, if_neg hxyz]
    refine ⟨rfl, ?_⟩
    simpa using squeezeNewlines_head (y :: z :: zs) y (z :: zs) rfl

/-! ## Sanitizer: the collapsing stages establish their run bounds -/

theorem squeezeSpaces_noDouble (s : List Nat) :
    hasDoubleSpace (squeezeSpaces s) = false := by
  induction s using squeezeSpaces.induct with
  | case1 => simp [squeezeSpaces, hasDoubleSpace]
  | case2 d => simp [squeezeSpaces, hasDoubleSpace]
  | case3 x y ys hxy ih => rw [squeezeSpaces, if_pos hxy]; exact ih
  | case4 x y ys hxy ih =>
    rw [squeezeSpaces, if_neg hxy]
    have hhead := squeezeSpaces_head (y :: ys) y ys rfl
    simp only [Bool.and_eq_true, beq_iff_eq, not_and] at hxy
    simp [hasDoubleSpace, hhead, ih]
    intro hx32 hy32
    exact hxy hx32 hy32

theorem squeezeNewlines_noTriple (s : List Nat) :
    hasTripleNewline (squeezeNewlines s) = false := by
  induction s using squeezeNewlines.induct with
  | case1 => simp [squeezeNewlines, hasTripleNewline]
  | case2 d => simp [squeezeNewlines, hasTripleNewline]
  | case3 d e => simp [squeezeNewlines, hasTripleNewline]
  | case4 x y z zs hxyz ih => rw [squeezeNewlines, if_pos hxyz]; exact ih
  | case5 x y z zs hxyz ih =>
    rw [squeezeNewlines, if_neg hxyz]
    obtain ⟨hhead, htail⟩ := squeezeNewlines_head_two (y :: z :: zs) y z zs rfl
    simp only [Bool.and_eq_true, beq_iff_eq, not_and] at hxyz
    simp [hasTripleNewline, hhead, htail, ih]
    intro hx10 hy10 hz10
    exact hxyz ⟨hx10, hy10⟩ hz10

theorem squeezeNewlines_preserves_noDouble {s : List Nat}
    (h : hasDoubleSpace s = false) :
    hasDoubleSpace (squeezeNewlines s) = false := by
  induction s using squeezeNewlines.induct with
  | case1 => simpa [squeezeNewlines] using h
  | case2 d => simpa [squeezeNewlines] using h
  | case3 d e => simpa [squeezeNewlines] using h
  | case4 x y z zs hxyz ih =>
    rw [squeezeNewlines, if_pos hxyz]
    apply ih
    simp [hasDoubleSpace] at h ⊢
    exact ⟨h.2.1, h.2.2⟩
  | case5 x y z zs hxyz ih =>
    rw [squeezeNewlines, if_neg hxyz]
    have hhead := squeezeNewlines_head (y :: z :: zs) y (z :: zs) rfl
    simp [hasDoubleSpace] at h
    simp [hasDoubleSpace, hhead]
    refine ⟨fun hx32 hy32 => h.1 hx32 hy32, ih ?_⟩
    simp [hasDoubleSpace]
    exact ⟨h.2.1, h.2.2⟩

/-! ## Sanitizer: the run predicates are preserved by infixes -/

theorem hasDoubleSpace_suffix {l₁ l₂ : List Nat} (h : l₁ <:+ l₂)
    (hl₂ : hasDoubleSpace l₂ = false) : hasDoubleSpace l₁ = false := by
  obtain ⟨t, rfl⟩ := h
  induction t with
  | nil => exact hl₂
  | cons a t ih =>
    apply ih
    simp [hasDoubleSpace] at hl₂
    exact hl₂.2

theorem hasTripleNewline_suffix {l₁ l₂ : List Nat} (h : l₁ <:+ l₂)
    (hl₂ : hasTripleNewline l₂ = false) : hasTripleNewline l₁ = false := by
  obtain ⟨t, rfl⟩ := h
  induction t with
  | nil => exact hl₂
  | cons a t ih =>
    apply ih
    simp [hasTripleNewline] at hl₂
    exact hl₂.2

theorem prefix_hasDoubleSpace {l₁ l₂ : List Nat} (h : l₁ <+: l₂)
    (hl₂ : hasDoubleSpace l₂ = false) : hasDoubleSpace l₁ = false := by
  obtain ⟨t, rfl⟩ := h
  induction l₁ with
  | nil => simp [hasDoubleSpace]
  | cons a l₁ ih =>
    rw [List.cons_append, hasDoubleSpace] at hl₂
    rw [hasDoubleSpace]
    rcases Bool.or_eq_false_iff.mp hl₂ with ⟨h1, h2⟩
    apply Bool.or_eq_false_iff.mpr
    refine ⟨?_, ih h2⟩
    cases l₁ with
    | nil => simp
    | cons b l₁' => simpa using h1

theorem prefix_hasTripleNewline {l₁ l₂ : List Nat} (h : l₁ <+: l₂)
    (hl₂ : hasTripleNewline l₂ = false) : hasTripleNewline l₁ = false := by
  obtain ⟨t, rfl⟩ := h
  induction l₁ with
  | nil => simp [hasTripleNewline]
  | cons a l₁ ih =>
    rw [List.cons_append, hasTripleNewline] at hl₂
    rw [hasTripleNewline]
    rcases Bool.or_eq_false_iff.mp hl₂ with ⟨h1, h2⟩
    apply Bool.or_eq_false_iff.mpr
    refine ⟨?_, ih h2⟩
    cases l₁ with
    | nil => simp
    | cons b l₁' =>
      cases l₁' with
      | nil => simp
      | cons c l₁'' => simpa using h1

/-! ## Sanitizer: trimming produces whitespace-free ends -/

theorem head_dropWhile_not {p : Nat → Bool} {s : List Nat} {c : Nat}
    (h : (s.dropWhile p).head? = some c) : p c = false := by
  induction s with
  | nil => simp at h
  | cons a rest ih =>
    by_cases hp : p a
    · rw [List.dropWhile_cons_of_pos hp] at h
      exact ih h
    · rw [List.dropWhile_cons_of_neg hp] at h
      simp at h
      rw [← h]
      exact Bool.not_eq_true _ ▸ (by simpa using hp)

theorem trimRight_getLast {s : List Nat} {c : Nat}
    (h : (trimRight s).getLast? = some c) : isJsWhitespace c = false := by
  induction s with
  | nil => simp [trimRight] at h
  | cons a rest ih =>
    rw [trimRight] at h
    rcases htr : trimRight rest with _ | ⟨x, xs⟩
    · rw [htr] at h
      by_cases hws : isJsWhitespace a
      · simp [hws] at h
      · simp [hws] at h
        rw [← h]
        simpa using hws
    · rw [htr] at h
      simp only [List.getLast?_cons_cons] at h
      rw [← htr] at h
      exact ih h

theorem head_some_of_pre {l₁ l₂ : List Nat} {c : Nat} (h : l₁ <+: l₂)
    (hc : l₁.head? = some c) : l₂.head? = some c := by
  obtain ⟨t, rfl⟩ := h
  cases l₁ with
  | nil => simp at hc
  | cons a l₁ => simpa using hc

theorem trim_head {s : List Nat} {c : Nat} (h : (trim s).head? = some c) :
    isJsWhitespace c = false := by
  unfold trim at h
  exact head_dropWhile_not (head_some_of_pre (prefix_of_trimRight _) h)

theorem trim_getLast {s : List Nat} {c : Nat}
    (h : (trim s).getLast? = some c) : isJsWhitespace c = false :=
  trimRight_getLast h

/-! ## Sanitizer: each stage is the identity on its own fixed points -/

theorem removeChars_id {p : Nat → Bool} {s : List Nat}
    (h : ∀ c ∈ s, p c = false) : removeChars p s = s := by
  unfold removeChars
  apply List.filter_eq_self.mpr
  intro a ha
  simp [h a ha]

theorem crlfToLf_id {s : List Nat} (h : ∀ c ∈ s, c ≠ 13) : crlfToLf s = s := by
  induction s using crlfToLf.induct with
  | case1 => rfl
  | case2 d => rfl
  | case3 a b rest hab ih =>
    exfalso
    simp at hab
    exact h a (List.mem_cons_self _ _) hab.1
  | case4 a b rest hab ih =>
    rw [crlfToLf, if_neg hab, ih]
    intro c hc
    exact h c (List.mem_cons_of_mem _ hc)

theorem crToLf_id {s : List Nat} (h : ∀ c ∈ s, c ≠ 13) : crToLf s = s := by
  induction s with
  | nil => rfl
  | cons a rest ih =>
    have ha : ¬ a = 13 := h a (List.mem_cons_self _ _)
    have hrest : crToLf rest = rest :=
      ih (fun c hc => h c (List.mem_cons_of_mem _ hc))
    unfold crToLf at hrest ⊢
    simp only [List.map_cons, hrest]
    congr 1
    simp [ha]

theorem squeezeSpaces_id {s : List Nat} (h : hasDoubleSpace s = false) :
    squeezeSpaces s = s := by
  induction s using squeezeSpaces.induct with
  | case1 => rfl
  | case2 d => rfl
  | case3 x y ys hxy ih =>
    exfalso
    rw [hasDoubleSpace] at h
    rcases Bool.or_eq_false_iff.mp h with ⟨h1, _⟩
    simp at h1 hxy
    exact h1 hxy.1 hxy.2
  | case4 x y ys hxy ih =>
    rw [squeezeSpaces, if_neg hxy, ih]
    rw [hasDoubleSpace] at h
    exact (Bool.or_eq_false_iff.mp h).2

theorem squeezeNewlines_id {s : List Nat} (h : hasTripleNewline s = false) :
    squeezeNewlines s = s := by
  induction s using squeezeNewlines.induct with
  | case1 => rfl
  | case2 d => rfl
  | case3 d e => rfl
  | case4 x y z zs hxyz ih =>
    exfalso
    rw [hasTripleNewline] at h
    rcases Bool.or_eq_false_iff.mp h with ⟨h1, _⟩
    simp at h1 hxyz
    exact h1 hxyz.1.1 hxyz.1.2 hxyz.2
  | case5 x y z zs hxyz ih =>
    rw [squeezeNewlines, if_neg hxyz, ih]
    rw [hasTripleNewline] at h
    exact (Bool.or_eq_false_iff.mp h).2

theorem dropWhile_id {p : Nat → Bool} {s : List Nat}
    (h : ∀ c, s.head? = some c → p c = false) : s.dropWhile p = s := by
  cases s with
  | nil => rfl
  | cons a rest =>
    rw [List.dropWhile_cons_of_neg]
    simp [h a rfl]

theorem trimRight_id {s : List Nat}
    (h : ∀ c, s.getLast? = some c → isJsWhitespace c = false) :
    trimRight s = s := by
  induction s with
  | nil => rfl
  | cons a rest ih =>
    rw [trimRight]
    cases hr : rest with
    | nil =>
      simp only [hr, trimRight]
      have := h a (by simp [hr])
      simp [this]
    | cons b rest' =>
      have hrest : trimRight rest = rest := by
        apply ih
        intro c hc
        apply h
        rw [hr] at hc ⊢
        rwa [List.getLast?_cons_cons]
      rw [hr] at hrest
      rw [hrest]

/-! ## Sanitizer: the output shape of the pipeline, and idempotence of the
post-normalization stages -/

theorem sanitizeRest_clean (s : List Nat) :
    (∀ c ∈ sanitizeRest s,
      isControlChar c = false ∧ isZeroWidthChar c = false ∧
      isBidiChar c = false ∧ c ≠ 13) ∧
    hasDoubleSpace (sanitizeRest s) = false ∧
    hasTripleNewline (sanitizeRest s) = false ∧
    (∀ c, (sanitizeRest s).head? = some c → isJsWhitespace c = false) ∧
    (∀ c, (sanitizeRest s).getLast? = some c → isJsWhitespace c = false) := by
  unfold sanitizeRest
  refine ⟨?_, ?_, ?_, fun c hc => trim_head hc, fun c hc => trim_getLast hc⟩
  · intro c hc
    have h1 := mem_squeezeSpaces (mem_squeezeNewlines (mem_trim hc))
    have h13 : c ≠ 13 := fun he => thirteen_not_mem_crToLf _ (he ▸ h1)
    rcases mem_crToLf h1 with h2 | rfl
    · have h3 := mem_crlfToLf h2
      have hbidi : isBidiChar c = false := by
        have := List.mem_filter.mp h3
        simpa using this.2
      have h4 := (List.mem_filter.mp h3).1
      have hzw : isZeroWidthChar c = false := by
        have := List.mem_filter.mp h4
        simpa using this.2
      have h5 := (List.mem_filter.mp h4).1
      have hctl : isControlChar c = false := by
        have := List.mem_filter.mp h5
        simpa using this.2
      exact ⟨hctl, hzw, hbidi, h13⟩
    · exact ⟨by decide, by decide, by decide, by decide⟩
  · have h0 := squeezeSpaces_noDouble (crToLf (crlfToLf
      (removeChars isBidiChar (removeChars isZeroWidthChar
        (removeChars isControlChar s)))))
    have h1 := squeezeNewlines_preserves_noDouble h0
    unfold trim
    exact prefix_hasDoubleSpace (prefix_of_trimRight _)
      (hasDoubleSpace_suffix (dropWhile_suffix _ _) h1)
  · have h1 := squeezeNewlines_noTriple (squeezeSpaces (crToLf (crlfToLf
      (removeChars isBidiChar (removeChars isZeroWidthChar
        (removeChars isControlChar s))))))
    unfold trim
    exact prefix_hasTripleNewline (prefix_of_trimRight _)
      (hasTripleNewline_suffix (dropWhile_suffix _ _) h1)

theorem sanitizeRest_idem (s : List Nat) :
    sanitizeRest (sanitizeRest s) = sanitizeRest s := by
  obtain ⟨habs, hdsp, htnl, hhead, hlast⟩ := sanitizeRest_clean s
  conv_lhs => rw [sanitizeRest]
  rw [removeChars_id (fun c hc => (habs c hc).1),
    removeChars_id (fun c hc => (habs c hc).2.1),
    removeChars_id (fun c hc => (habs c hc).2.2.1),
    crlfToLf_id (fun c hc => (habs c hc).2.2.2),
    crToLf_id (fun c hc => (habs c hc).2.2.2),
    squeezeSpaces_id hdsp, squeezeNewlines_id htnl]
  unfold trim
  rw [dropWhile_id hhead, trimRight_id hlast]

/-- Claim C2, counterexample: `sanitizeText` is not idempotent.  On the
input a, U+200B ZERO WIDTH SPACE, U+0301 COMBINING ACUTE ACCENT the first
pass removes the zero-width space (NFC leaves the input unchanged because
the zero-width space, a starter, blocks composition), exposing the
sequence a U+0301; the second pass NFC-composes that sequence to U+00E1,
so applying the sanitizer twice gives a strictly different string. -/
theorem sanitizeText_not_idempotent :
    sanitizeText (sanitizeText [0x61, 0x200B, 0x301]) ≠
      sanitizeText [0x61, 0x200B, 0x301] := by decide

/-- Claim C2, amended: `sanitizeText` is idempotent on every input whose
sanitized form is a fixed point of Unicode normalization — equivalently,
the whole pipeline after the normalization stage is idempotent
unconditionally (`sanitizeRest_idem`); only the interaction between
character removal and canonical composition can break idempotence. -/
theorem sanitizeText_idem_of_nfc_fixed (x : List Nat)
    (h : normalizeNFC (sanitizeText x) = sanitizeText x) :
    sanitizeText (sanitizeText x) = sanitizeText x := by
  show sanitizeRest (normalizeNFC (sanitizeText x)) = sanitizeText x
  rw [h]
  show sanitizeRest (sanitizeRest (normalizeNFC x)) = sanitizeText x
  rw [sanitizeRest_idem]
  rfl

/-- Witness for the amended claim C2 at a concrete input. -/
theorem sanitizeText_idem_of_nfc_fixed_witness :
    normalizeNFC (sanitizeText [97, 32, 98]) = sanitizeText [97, 32, 98] ∧
    sanitizeText (sanitizeText [97, 32, 98]) = sanitizeText [97, 32, 98] :=
  ⟨by decide, sanitizeText_idem_of_nfc_fixed [97, 32, 98] (by decide)⟩

/-- Claim C3: for every input, the output of `sanitizeText` contains no
control character of the removed class (so none other than tab and
newline), no zero-width or soft-hyphen character, no bidirectional
override or isolate character, no carriage return, no two adjacent
spaces, no three adjacent newlines, and neither starts nor ends with
whitespace. -/
theorem sanitizeText_output_clean (x : List Nat) :
    (∀ c ∈ sanitizeText x,
      isControlChar c = false ∧ isZeroWidthChar c = false ∧
      isBidiChar c = false ∧ c ≠ 13) ∧
    hasDoubleSpace (sanitizeText x) = false ∧
    hasTripleNewline (sanitizeText x) = false ∧
    (∀ c, (sanitizeText x).head? = some c → isJsWhitespace c = false) ∧
    (∀ c, (sanitizeText x).getLast? = some c → isJsWhitespace c = false) :=
  sanitizeRest_clean (normalizeNFC x)

/-- Witness for claim C3 at a concrete input. -/
theorem sanitizeText_output_clean_witness :
    isControlChar 104 = false ∧ isZeroWidthChar 104 = false ∧
    isBidiChar 104 = false ∧ (104 : Nat) ≠ 13 ∧
    isJsWhitespace 104 = false := by
  have h := sanitizeText_output_clean [0, 104, 32, 32, 105, 13]
  have hm : (104 : Nat) ∈ sanitizeText [0, 104, 32, 32, 105, 13] := by decide
  have hh : (sanitizeText [0, 104, 32, 32, 105, 13]).head? = some 104 := by
    decide
  obtain ⟨h1, _, _, h4, _⟩ := h
  exact ⟨(h1 104 hm).1, (h1 104 hm).2.1, (h1 104 hm).2.2.1,
    (h1 104 hm).2.2.2, h4 104 hh⟩

/-- Claim C4: `sanitizeAndValidate` sanitizes first and then checks the
length of the sanitized text against the threshold; with the source's
default threshold 100, a sanitized length of 99 is invalid and a
sanitized length of exactly 100 is valid. -/
theorem sanitizeAndValidate_spec (t : List Nat) (m : Nat) :
    (sanitizeAndValidate t m).text = sanitizeText t ∧
    (sanitizeAndValidate t m).length = (sanitizeText t).length ∧
    ((sanitizeAndValidate t m).valid = true ↔ m ≤ (sanitizeText t).length) ∧
    ((sanitizeText t).length = 99 → (sanitizeAndValidate t 100).valid = false) ∧
    ((sanitizeText t).length = 100 → (sanitizeAndValidate t 100).valid = true) := by
  refine ⟨rfl, rfl, by simp [sanitizeAndValidate], ?_, ?_⟩
  · intro h
    simp [sanitizeAndValidate, h]
  · intro h
    simp [sanitizeAndValidate, h]

/-- Witness for claim C4 at the 99- and 100-character boundary inputs. -/
theorem sanitizeAndValidate_spec_witness :
    ((sanitizeText (List.replicate 99 97)).length = 99 ∧
      (sanitizeAndValidate (List.replicate 99 97) 100).valid = false) ∧
    ((sanitizeText (List.replicate 100 97)).length = 100 ∧
      (sanitizeAndValidate (List.replicate 100 97) 100).valid = true) :=
  ⟨⟨by decide, (sanitizeAndValidate_spec (List.replicate 99 97) 100).2.2.2.1
      (by decide)⟩,
    ⟨by decide, (sanitizeAndValidate_spec (List.replicate 100 97) 100).2.2.2.2
      (by decide)⟩⟩

/-- Rounding-up division by four on naturals is the rational ceiling. -/
theorem natCeil_divFour (a : Nat) : (a + 3) / 4 = ⌈(a : ℚ) / 4⌉₊ := by
  have hb : a ≤ ((a + 3) / 4 : ℕ) * 4 := by omega
  have h1 : ⌈(a : ℚ) / 4⌉₊ ≤ (a + 3) / 4 := by
    apply Nat.ceil_le.mpr
    rw [div_le_iff₀ (by norm_num : (0 : ℚ) < 4)]
    exact_mod_cast hb
  have h2 : (a : ℚ) / 4 ≤ (⌈(a : ℚ) / 4⌉₊ : ℚ) := Nat.le_ceil _
  rw [div_le_iff₀ (by norm_num : (0 : ℚ) < 4)] at h2
  have h3 : a ≤ ⌈(a : ℚ) / 4⌉₊ * 4 := by exact_mod_cast h2
  omega

/-- Claim C8: with the tokenizer unavailable, `countTokens` and
`countTokensEstimate` both equal the ceiling of length divided by four,
and the empty string counts zero tokens. -/
theorem countTokens_fallback_spec (text : List Char) :
    countTokens none text = ⌈(text.length : ℚ) / 4⌉₊ ∧
    countTokensEstimate text = ⌈(text.length : ℚ) / 4⌉₊ ∧
    countTokens none ([] : List Char) = 0 ∧
    countTokensEstimate ([] : List Char) = 0 :=
  ⟨natCeil_divFour text.length, natCeil_divFour text.length, rfl, rfl⟩

/-- Claim C9: `truncateToTokenLimit` returns the input unchanged whenever
its token count (exact if the tokenizer is available, else the estimate)
is within the limit; the empty string comes back empty with zero tokens
(in tokenizer mode, provided the tokenizer encodes the empty string to no
tokens); and in fallback mode the result is a prefix of the input whose
estimated token count is within the limit. -/
theorem truncateToTokenLimit_spec (tok : Option Tokenizer) (text : List Char)
    (maxTokens : Nat) :
    (countTokens tok text ≤ maxTokens →
      truncateToTokenLimit tok text maxTokens = text) ∧
    (truncateToTokenLimit none ([] : List Char) maxTokens = [] ∧
      countTokens none ([] : List Char) = 0) ∧
    (∀ tk : Tokenizer, tk.encode [] = [] →
      truncateToTokenLimit (some tk) ([] : List Char) maxTokens = [] ∧
      countTokens (some tk) ([] : List Char) = 0) ∧
    truncateToTokenLimit none text maxTokens <+: text ∧
    countTokensEstimate (truncateToTokenLimit none text maxTokens) ≤
      maxTokens := by
  refine ⟨?_, ⟨by simp [truncateToTokenLimit], rfl⟩, ?_, ?_, ?_⟩
  · intro h
    match tok with
    | some tk =>
      simp only [countTokens] at h
      simp [truncateToTokenLimit, h]
    | none =>
      simp only [countTokens, CHARS_PER_TOKEN] at h
      have : text.length ≤ maxTokens * 4 := by omega
      simp [truncateToTokenLimit, CHARS_PER_TOKEN, this]
  · intro tk he
    constructor
    · simp [truncateToTokenLimit, he]
    · simp [countTokens, he]
  · unfold truncateToTokenLimit
    by_cases h : text.length ≤ maxTokens * CHARS_PER_TOKEN
    · simp [h]
    · simp [h]
      exact List.take_prefix _ _
  · unfold truncateToTokenLimit countTokensEstimate
    by_cases h : text.length ≤ maxTokens * CHARS_PER_TOKEN
    · simp only [h, if_pos]
      simp only [CHARS_PER_TOKEN] at h ⊢
      omega
    · simp only [h, if_neg, not_false_iff]
      rw [List.length_take]
      simp only [CHARS_PER_TOKEN] at h ⊢
      omega

/-- Witness for claim C9 at concrete inputs. -/
theorem truncateToTokenLimit_spec_witness :
    (countTokens none ['a', 'b'] ≤ 5 ∧
      truncateToTokenLimit none ['a', 'b'] 5 = ['a', 'b']) ∧
    (trivialTokenizer.encode [] = [] ∧
      truncateToTokenLimit (some trivialTokenizer) [] 5 = []) :=
  ⟨⟨by decide, (truncateToTokenLimit_spec none ['a', 'b'] 5).1 (by decide)⟩,
    ⟨rfl, ((truncateToTokenLimit_spec (some trivialTokenizer) [] 5).2.2.1
      trivialTokenizer rfl).1⟩⟩

theorem chunks16_flatten {α : Type} (l : List α) :
    (chunks16 l).flatten = l := by
  induction l using chunks16.induct with
  | case1 => simp [chunks16]
  | case2 r rs ih =>
    rw [chunks16]
    simp only [List.flatten_cons, ih]
    exact List.take_append_drop _ _

theorem chunks16_mem {α : Type} {l : List α} {b : List α}
    (h : b ∈ chunks16 l) : b.length ≤ MAX_BATCH_SIZE ∧ b ≠ [] := by
  induction l using chunks16.induct with
  | case1 => simp [chunks16] at h
  | case2 r rs ih =>
    rw [chunks16] at h
    rcases List.mem_cons.mp h with rfl | h'
    · constructor
      · simpa using List.length_take_le _ _
      · simp [MAX_BATCH_SIZE]
    · exact ih h'

theorem chunks16_eq_nil_iff {α : Type} (l : List α) :
    chunks16 l = [] ↔ l = [] := by
  cases l with
  | nil => simp [chunks16]
  | cons r rs =>
    rw [chunks16]
    simp

theorem batchedAux_eq {α : Type} (f : List String → List α) (total : Nat)
    (remaining : List String) (done : Nat) :
    createEmbeddingsBatchedAux f total remaining done =
      Except.ok (((chunks16 remaining).map f).flatten,
        expectedTrace total (chunks16 remaining) done) := by
  induction remaining using chunks16.induct generalizing done with
  | case1 => simp [createEmbeddingsBatchedAux, chunks16, expectedTrace]
  | case2 r rs ih =>
    have hbatch : createEmbeddings ((r :: rs).take MAX_BATCH_SIZE) =
        EmbedOutcome.providerCall ((r :: rs).take MAX_BATCH_SIZE) := by
      unfold createEmbeddings
      have h1 : ((r :: rs).take MAX_BATCH_SIZE).length ≤ MAX_BATCH_SIZE := by
        simpa using List.length_take_le _ _
      have h2 : ((r :: rs).take MAX_BATCH_SIZE).length ≠ 0 := by
        simp [MAX_BATCH_SIZE]
      rw [if_neg (by omega), if_neg h2]
    rw [createEmbeddingsBatchedAux, hbatch, ih]
    rw [chunks16]
    simp only [List.map_cons, List.flatten_cons]
    rcases hrest : chunks16 ((r :: rs).drop MAX_BATCH_SIZE) with _ | ⟨c, cs⟩
    · have hnil : (r :: rs).drop MAX_BATCH_SIZE = [] :=
        (chunks16_eq_nil_iff _).mp hrest
      rw [hnil]
      simp [expectedTrace]
    · have hne : (r :: rs).drop MAX_BATCH_SIZE ≠ [] := by
        intro hc
        rw [hc] at hrest
        simp [chunks16] at hrest
      rw [expectedTrace]
      simp [List.isEmpty_iff, hne]

/-- Claim C5: the single-batch call throws for every batch of more than
16 texts and for the empty batch, reaching the provider in neither case,
and calls the provider on the full batch for every batch of 1 to 16
texts. -/
theorem createEmbeddings_spec (texts : List String) :
    (16 < texts.length →
      createEmbeddings texts =
        EmbedOutcome.error "Maximum 16 texts per request") ∧
    (texts.length = 0 →
      createEmbeddings texts =
        EmbedOutcome.error "At least one text is required") ∧
    (1 ≤ texts.length → texts.length ≤ 16 →
      createEmbeddings texts = EmbedOutcome.providerCall texts) := by
  refine ⟨?_, ?_, ?_⟩
  · intro h
    unfold createEmbeddings
    rw [if_pos]
    simpa [MAX_BATCH_SIZE] using h
  · intro h
    unfold createEmbeddings
    rw [if_neg (by simp [h, MAX_BATCH_SIZE]), if_pos h]
  · intro h1 h16
    unfold createEmbeddings
    rw [if_neg (by simp [MAX_BATCH_SIZE]; omega), if_neg (by omega)]

/-- Witness for claim C5 at batches of sizes 17, 0 and 1. -/
theorem createEmbeddings_spec_witness :
    (16 < (List.replicate 17 "x").length ∧
      createEmbeddings (List.replicate 17 "x") =
        EmbedOutcome.error "Maximum 16 texts per request") ∧
    createEmbeddings [] = EmbedOutcome.error "At least one text is required" ∧
    createEmbeddings ["x"] = EmbedOutcome.providerCall ["x"] :=
  ⟨⟨by decide, (createEmbeddings_spec (List.replicate 17 "x")).1 (by decide)⟩,
    (createEmbeddings_spec []).2.1 rfl,
    (createEmbeddings_spec ["x"]).2.2 (by decide) (by decide)⟩

theorem getLast?_cons_of_ne_nil {β : Type} {a : β} {l : List β}
    (h : l ≠ []) : (a :: l).getLast? = l.getLast? := by
  cases l with
  | nil => exact absurd rfl h
  | cons b t => exact List.getLast?_cons_cons

theorem expectedTrace_ne_nil (total : Nat) (bs : List (List String))
    (done : Nat) (h : bs ≠ []) : expectedTrace total bs done ≠ [] := by
  cases bs with
  | nil => exact absurd rfl h
  | cons b bs' =>
    cases bs' with
    | nil => simp [expectedTrace]
    | cons b' bs'' => simp [expectedTrace]

theorem expectedTrace_getLast (total : Nat) :
    ∀ bs done, bs ≠ [] →
      (expectedTrace total bs done).getLast? =
        some (BatchEvent.progress (done + bs.flatten.length) total) := by
  intro bs
  induction bs with
  | nil => intro done h; exact absurd rfl h
  | cons b bs' ih =>
    intro done h
    cases bs' with
    | nil => simp [expectedTrace]
    | cons b' bs'' =>
      rw [expectedTrace]
      rw [getLast?_cons_of_ne_nil (by simp),
        getLast?_cons_of_ne_nil (by simp [expectedTrace_ne_nil]),
        getLast?_cons_of_ne_nil (expectedTrace_ne_nil _ _ _ (by simp)),
        ih _ (by simp)]
      congr 2
      simp
      omega

/-- Claim C6: the batched entry point partitions its input in order into
consecutive batches of at most 16 nonempty slices, runs the single-batch
call on each, returns the concatenation of the providers' vectors in
input order, reports cumulative progress after each batch, delays 31000
ms only strictly between batches, and ends (when input is nonempty) on
the final full-progress report rather than a delay. -/
theorem createEmbeddingsBatched_spec {α : Type} (f : List String → List α)
    (texts : List String) :
    createEmbeddingsBatched f texts =
      Except.ok (((chunks16 texts).map f).flatten,
        expectedTrace texts.length (chunks16 texts) 0) ∧
    (chunks16 texts).flatten = texts ∧
    (∀ b ∈ chunks16 texts, b.length ≤ MAX_BATCH_SIZE ∧ b ≠ []) ∧
    (texts ≠ [] →
      (expectedTrace texts.length (chunks16 texts) 0).getLast? =
        some (BatchEvent.progress texts.length texts.length)) := by
  refine ⟨batchedAux_eq f texts.length texts 0, chunks16_flatten texts,
    fun b hb => chunks16_mem hb, ?_⟩
  intro hne
  rw [expectedTrace_getLast texts.length (chunks16 texts) 0
    (by simpa [chunks16_eq_nil_iff] using hne)]
  rw [chunks16_flatten texts]
  simp

/-- Witness for claim C6 at a concrete one-batch input. -/
theorem createEmbeddingsBatched_spec_witness :
    (["a"] ∈ chunks16 [("a" : String)]) ∧
    ((["a"] : List String).length ≤ MAX_BATCH_SIZE ∧
      (["a"] : List String) ≠ []) ∧
    createEmbeddingsBatched (fun b => [b.length]) ["a"] =
      Except.ok ([1], [BatchEvent.call ["a"], BatchEvent.progress 1 1]) ∧
    (expectedTrace 1 (chunks16 [("a" : String)]) 0).getLast? =
      some (BatchEvent.progress 1 1) := by
  have h := createEmbeddingsBatched_spec (fun b : List String => [b.length])
    ["a"]
  have hc : chunks16 [("a" : String)] = [["a"]] := by
    rw [chunks16]
    rw [show ([("a" : String)]).take MAX_BATCH_SIZE = ["a"] from rfl]
    rw [show ([("a" : String)]).drop MAX_BATCH_SIZE = [] from rfl]
    simp [chunks16]
  have hmem : ["a"] ∈ chunks16 [("a" : String)] := by
    rw [hc]
    exact List.mem_singleton.mpr rfl
  refine ⟨hmem, h.2.2.1 ["a"] hmem, ?_, ?_⟩
  · have h1 := h.1
    rw [hc] at h1
    simpa [expectedTrace] using h1
  · have h4 := h.2.2.2 (by simp)
    simpa using h4

/-- Claim C10: the batched entry point accepts the empty input, returning
no vectors, making no provider call and reporting no progress, while the
single-batch entry point throws on the same input — the two disagree on
the empty-input edge case. -/
theorem createEmbeddingsBatched_empty_vs_single {α : Type}
    (f : List String → List α) :
    createEmbeddingsBatched f [] =
      Except.ok (([] : List α), ([] : List BatchEvent)) ∧
    createEmbeddings [] =
      EmbedOutcome.error "At least one text is required" := by
  constructor
  · simp [createEmbeddingsBatched, createEmbeddingsBatchedAux]
  · rfl

theorem urlScheme_of_https (t : List Char) :
    urlScheme (httpsPrefix ++ t) = ['h', 't', 't', 'p', 's'] := by
  simp [urlScheme, httpsPrefix]

/-- Claim C7: a remote-URL submission whose scheme is not `https` fails
the upload schema's validation, and the fetcher refuses a disallowed
target with a SecurityBlocked outcome before any network call. -/
theorem non_https_rejected (isUrl : List Char → Bool)
    (resolvesDisallowed : List Char → Bool) (url : List Char) :
    (urlScheme url ≠ ['h', 't', 't', 'p', 's'] →
      urlUploadAccepts isUrl url = false) ∧
    (urlScheme url ≠ ['h', 't', 't', 'p', 's'] →
      fetchText resolvesDisallowed url = FetchOutcome.securityBlocked) ∧
    (resolvesDisallowed url = true →
      fetchText resolvesDisallowed url ≠ FetchOutcome.networkFetch url) := by
  refine ⟨?_, ?_, ?_⟩
  · intro h
    unfold urlUploadAccepts
    rcases hp : httpsPrefix.isPrefixOf url with _ | _
    · simp
    · exfalso
      obtain ⟨t, rfl⟩ := List.isPrefixOf_iff_prefix.mp hp
      exact h (urlScheme_of_https t)
  · intro h
    simp [fetchText, h]
  · intro h
    unfold fetchText
    by_cases hs : urlScheme url ≠ ['h', 't', 't', 'p', 's']
    · simp [hs]
    · simp [hs, h]

/-- Witness for claim C7 at the literal `http` URL of the spec's test
list. -/
theorem non_https_rejected_witness :
    urlScheme ('h' :: 't' :: 't' :: 'p' :: ':' :: '/' :: '/' :: ['a']) ≠
      ['h', 't', 't', 'p', 's'] ∧
    urlUploadAccepts (fun _ => true)
      ('h' :: 't' :: 't' :: 'p' :: ':' :: '/' :: '/' :: ['a']) = false ∧
    fetchText (fun _ => false)
      ('h' :: 't' :: 't' :: 'p' :: ':' :: '/' :: '/' :: ['a']) =
      FetchOutcome.securityBlocked :=
  ⟨by decide,
    (non_https_rejected (fun _ => true) (fun _ => false) _).1 (by decide),
    (non_https_rejected (fun _ => true) (fun _ => false) _).2.1 (by decide)⟩

/-- Claim C1: the vector-store key of a chunk depends only on the
document identifier and the position, so two ingestion runs of the same
document producing the same number of chunks assign identical keys at
every position (overwrite, not duplication). -/
theorem vectorKeys_deterministic (d : String) (c₁ c₂ : List String)
    (h : c₁.length = c₂.length) :
    vectorKeysFor d c₁ = vectorKeysFor d c₂ ∧
    ∀ p, p < c₁.length →
      (vectorKeysFor d c₁)[p]? = some (pineconeIdFor d p) := by
  constructor
  · unfold vectorKeysFor
    rw [h]
  · intro p hp
    unfold vectorKeysFor
    rw [List.getElem?_map, List.getElem?_range hp]
    rfl

/-- Witness for claim C1: two ingestion runs with different chunk
contents produce the same keys. -/
theorem vectorKeys_deterministic_witness :
    (["x", "y"] : List String).length = (["u", "v"] : List String).length ∧
    vectorKeysFor "doc" ["x", "y"] = vectorKeysFor "doc" ["u", "v"] ∧
    (vectorKeysFor "doc" ["x", "y"])[0]? = some (pineconeIdFor "doc" 0) :=
  ⟨rfl, (vectorKeys_deterministic "doc" ["x", "y"] ["u", "v"] rfl).1,
    (vectorKeys_deterministic "doc" ["x", "y"] ["u", "v"] rfl).2 0
      (by decide)⟩

example : sanitizeText [104, 105, 0, 33] = [104, 105, 33] := by decide
example : sanitizeText [99, 97, 102, 101, 0x301] = [99, 97, 102, 0xE9] := by decide
example : sanitizeText [32, 97, 32, 32, 98, 10, 10, 10, 99, 32] =
    [97, 32, 98, 10, 10, 99] := by decide
example : sanitizeText [97, 13, 10, 98, 13, 99] = [97, 10, 98, 10, 99] := by decide

end Ingest
